import Mathlib

/-!
Verification of the hwdb compiler in src/src/udev/udevadm-hwdb.c against its
specification.  The development shallowly embeds the in-memory radix trie, the
string pool backing it, the text-record parser and the serializer, and proves
or refutes the frozen claims about them.

Bytes are modelled as natural numbers (a C `char` read as `uint8_t`); strings
handed to the pool are NUL-free byte lists, with the terminating NUL only ever
materialised inside the pool buffer.
-/

/-! ## String pool -/

/-- The NUL-terminated C string starting at offset `off` of the pool buffer
`b`, i.e. the bytes from `off` up to (excluding) the first zero byte.  This
models a `const char *` pointing into `trie->strings->buf`. -/
def getString (b : List Nat) (off : Nat) : List Nat :=
  List.takeWhile (fun x => x != 0) (b.drop off)

/-- The string starting at `off` is properly NUL-terminated inside `b`. -/
def Terminated (b : List Nat) (off : Nat) : Prop :=
  0 ∈ b.drop off

/-- At offset `off` the buffer `b` holds exactly the bytes `s` followed by a
NUL terminator. -/
def ReadsAt (b : List Nat) (off : Nat) (s : List Nat) : Prop :=
  (b.drop off).take (s.length + 1) = s ++ [0]

/-- Modelled from the spec: the string pool (`struct strbuf`; strbuf.c is not
among the given sources).  `buf` is the append-only byte arena, which begins
with a single zero byte so that offset 0 is the empty-string sentinel.
`index` is the deduplication map from previously added byte sequences to the
offset at which they were stored. -/
structure Strbuf where
  buf : List Nat
  index : List (List Nat × Nat)

/-- Modelled from the spec: `strbuf_new()` returns a pool whose buffer is a
single NUL byte, with the empty string already present at offset 0. -/
def strbuf_new : Strbuf :=
  ⟨[0], [([], 0)]⟩

/-- Modelled from the spec: `strbuf_add_string(buf, s, len)` returns the
offset of a NUL-terminated copy of `s` inside the pool, deduplicating
identical byte sequences (an identical sequence added twice returns the same
offset); otherwise the bytes plus a NUL terminator are appended. -/
def strbuf_add_string (sb : Strbuf) (s : List Nat) : Strbuf × Nat :=
  match sb.index.find? (fun e => e.1 == s) with
  | some e => (sb, e.2)
  | none => (⟨sb.buf ++ s ++ [0], (s, sb.buf.length) :: sb.index⟩, sb.buf.length)

/-- Well-formedness of the pool: every entry of the dedup index is a NUL-free
byte sequence actually stored, NUL-terminated, at its recorded offset. -/
def StrbufWF (sb : Strbuf) : Prop :=
  ∀ e ∈ sb.index, 0 ∉ e.1 ∧ ReadsAt sb.buf e.2 e.1

/-- `b2` is `b` with further bytes appended (the pool only ever grows). -/
def BufExtends (b b2 : List Nat) : Prop :=
  ∃ e, b2 = b ++ e

theorem bufExtends_refl (b : List Nat) : BufExtends b b :=
  ⟨[], by simp⟩

theorem bufExtends_trans {a b c : List Nat} (h1 : BufExtends a b) (h2 : BufExtends b c) :
    BufExtends a c := by
  obtain ⟨e1, rfl⟩ := h1
  obtain ⟨e2, rfl⟩ := h2
  exact ⟨e1 ++ e2, by simp⟩

theorem takeWhile_append_zero (s t : List Nat) (hs : ∀ x ∈ s, x ≠ 0) :
    List.takeWhile (fun x => x != 0) (s ++ 0 :: t) = s := by
  induction s with
  | nil => simp [List.takeWhile]
  | cons a s ih =>
    have ha : a ≠ 0 := hs a (by simp)
    rw [List.cons_append, List.takeWhile_cons]
    simp [ha, ih (fun x hx => hs x (by simp [hx]))]

theorem ReadsAt.drop_eq {b : List Nat} {o : Nat} {s : List Nat} (h : ReadsAt b o s) :
    b.drop o = s ++ 0 :: (b.drop o).drop (s.length + 1) := by
  conv_lhs => rw [← List.take_append_drop (s.length + 1) (b.drop o)]
  rw [h]
  simp

theorem ReadsAt.getString_eq {b : List Nat} {o : Nat} {s : List Nat}
    (h : ReadsAt b o s) (hs : 0 ∉ s) : getString b o = s := by
  unfold getString
  rw [h.drop_eq]
  exact takeWhile_append_zero s _ (fun x hx => by rintro rfl; exact hs hx)

theorem ReadsAt.terminated {b : List Nat} {o : Nat} {s : List Nat}
    (h : ReadsAt b o s) : Terminated b o := by
  unfold Terminated
  rw [h.drop_eq]
  simp

theorem ReadsAt.le_length {b : List Nat} {o : Nat} {s : List Nat}
    (h : ReadsAt b o s) : o + s.length + 1 ≤ b.length := by
  have hlen := congrArg List.length h
  simp only [List.length_take, List.length_drop, List.length_append,
    List.length_cons] at hlen
  omega

theorem ReadsAt.mono {b b2 : List Nat} {o : Nat} {s : List Nat}
    (h : ReadsAt b o s) (he : BufExtends b b2) : ReadsAt b2 o s := by
  obtain ⟨e, rfl⟩ := he
  have hl := h.le_length
  have ho : o ≤ b.length := by omega
  unfold ReadsAt at h ⊢
  rw [List.drop_append_of_le_length ho]
  rw [List.take_append_of_le_length
    (by simp only [List.length_drop]; omega)]
  exact h

theorem terminated_mono {b b2 : List Nat} {o : Nat}
    (h : Terminated b o) (he : BufExtends b b2) : Terminated b2 o := by
  obtain ⟨e, rfl⟩ := he
  unfold Terminated at h ⊢
  have ho : o ≤ b.length := by
    by_contra hc
    push_neg at hc
    rw [List.drop_eq_nil_of_le (by omega)] at h
    simp at h
  rw [List.drop_append_of_le_length ho]
  exact List.mem_append_left _ h

theorem takeWhile_append_of_mem_zero {x : List Nat} (e : List Nat) (hx : 0 ∈ x) :
    List.takeWhile (fun v => v != 0) (x ++ e) = List.takeWhile (fun v => v != 0) x := by
  induction x with
  | nil => simp at hx
  | cons a x ih =>
    by_cases ha : a = 0
    · subst ha
      simp [List.takeWhile]
    · simp only [List.mem_cons] at hx
      have hx' : 0 ∈ x := by
        rcases hx with h | h
        · exact absurd h.symm ha
        · exact h
      rw [List.cons_append, List.takeWhile_cons, List.takeWhile_cons]
      simp [ha, ih hx']

theorem getString_mono {b b2 : List Nat} {o : Nat}
    (h : Terminated b o) (he : BufExtends b b2) : getString b2 o = getString b o := by
  obtain ⟨e, rfl⟩ := he
  unfold Terminated at h
  have ho : o ≤ b.length := by
    by_contra hc
    push_neg at hc
    rw [List.drop_eq_nil_of_le (by omega)] at h
    simp at h
  unfold getString
  rw [List.drop_append_of_le_length ho]
  exact takeWhile_append_of_mem_zero e h

theorem getString_all_ne_zero {b : List Nat} {o : Nat} :
    ∀ x ∈ getString b o, x ≠ 0 := by
  intro x hx
  have := List.mem_takeWhile_imp hx
  simpa using this

theorem takeWhile_drop_comm {q : Nat → Bool} {x : List Nat} {j : Nat}
    (hj : j ≤ (List.takeWhile q x).length) :
    List.takeWhile q (x.drop j) = (List.takeWhile q x).drop j := by
  induction j generalizing x with
  | zero => simp
  | succ j ih =>
    cases x with
    | nil => simp at hj ⊢
    | cons a x =>
      by_cases ha : q a
      · simp only [List.takeWhile_cons, ha, if_pos] at hj ⊢
        simp only [List.length_cons] at hj
        simp only [List.drop_succ_cons]
        exact ih (by omega)
      · simp only [List.takeWhile_cons, ha] at hj
        simp at hj

theorem getString_shift {b : List Nat} {o j : Nat}
    (hj : j ≤ (getString b o).length) :
    getString b (o + j) = (getString b o).drop j := by
  unfold getString at hj ⊢
  rw [show b.drop (o + j) = (b.drop o).drop j by rw [List.drop_drop, Nat.add_comm]]
  exact takeWhile_drop_comm hj

theorem exists_dropWhile_zero {x : List Nat} (hx : 0 ∈ x) :
    ∃ ys, List.dropWhile (fun v => v != 0) x = 0 :: ys := by
  induction x with
  | nil => simp at hx
  | cons a x ih =>
    by_cases ha : a = 0
    · subst ha
      exact ⟨x, by simp [List.dropWhile]⟩
    · have hx' : 0 ∈ x := by
        simp only [List.mem_cons] at hx
        rcases hx with h | h
        · exact absurd h.symm ha
        · exact h
      obtain ⟨ys, hys⟩ := ih hx'
      refine ⟨ys, ?_⟩
      rw [List.dropWhile_cons]
      simpa [ha] using hys

theorem terminated_shift {b : List Nat} {o j : Nat}
    (h : Terminated b o) (hj : j ≤ (getString b o).length) :
    Terminated b (o + j) := by
  unfold Terminated at h ⊢
  rw [show b.drop (o + j) = (b.drop o).drop j by rw [List.drop_drop, Nat.add_comm]]
  obtain ⟨ys, hys⟩ := exists_dropWhile_zero h
  have hsplit : b.drop o = List.takeWhile (fun v => v != 0) (b.drop o) ++
      List.dropWhile (fun v => v != 0) (b.drop o) :=
    (List.takeWhile_append_dropWhile _ _).symm
  rw [hsplit, List.drop_append_of_le_length (by exact hj), hys]
  exact List.mem_append_right _ (by simp)

theorem strbuf_add_extends (sb : Strbuf) (s : List Nat) :
    BufExtends sb.buf (strbuf_add_string sb s).1.buf := by
  unfold strbuf_add_string
  cases h : sb.index.find? (fun e => e.1 == s) with
  | some e => exact bufExtends_refl _
  | none => exact ⟨s ++ [0], by simp⟩

theorem strbuf_add_spec (sb : Strbuf) (s : List Nat)
    (hwf : StrbufWF sb) (hs : 0 ∉ s) :
    StrbufWF (strbuf_add_string sb s).1 ∧
      ReadsAt (strbuf_add_string sb s).1.buf (strbuf_add_string sb s).2 s := by
  unfold strbuf_add_string
  cases h : sb.index.find? (fun e => e.1 == s) with
  | some e =>
    have hmem : e ∈ sb.index := List.mem_of_find?_eq_some h
    have heq : e.1 = s := by
      have := List.find?_some h
      simpa using this
    refine ⟨hwf, ?_⟩
    simpa [heq] using (hwf e hmem).2
  | none =>
    constructor
    · intro e he
      simp only [List.mem_cons] at he
      rcases he with rfl | he
      · refine ⟨hs, ?_⟩
        unfold ReadsAt
        simp only
        rw [show sb.buf ++ s ++ [0] = sb.buf ++ (s ++ [0]) by simp]
        rw [List.drop_append_of_le_length (le_refl _)]
        simp
      · obtain ⟨h1, h2⟩ := hwf e he
        exact ⟨h1, h2.mono ⟨s ++ [0], by simp⟩⟩
    · unfold ReadsAt
      simp only
      rw [show sb.buf ++ s ++ [0] = sb.buf ++ (s ++ [0]) by simp]
      rw [List.drop_append_of_le_length (le_refl _)]
      simp

theorem strbuf_new_wf : StrbufWF strbuf_new := by
  intro e he
  simp only [strbuf_new, List.mem_cons, List.not_mem_nil, or_false] at he
  subst he
  exact ⟨by simp, by simp [ReadsAt, strbuf_new]⟩

/-! ## In-memory trie -/

/-- In-memory trie node (`struct trie_node`): the interned prefix offset, the
sorted array of child entries `(c, child)` (`struct trie_child_entry`) and the
array of key/value entries `(key_off, value_off)` (`struct trie_value_entry`). -/
inductive TrieNode where
  | mk (prefix_off : Nat) (children : List (Nat × TrieNode)) (values : List (Nat × Nat)) : TrieNode

def TrieNode.prefix_off : TrieNode → Nat
  | .mk p _ _ => p

def TrieNode.children : TrieNode → List (Nat × TrieNode)
  | .mk _ c _ => c

def TrieNode.values : TrieNode → List (Nat × Nat)
  | .mk _ _ v => v

/-- The bookkeeping part of `struct trie`: the string pool and the diagnostic
counters (the root node is carried separately). -/
structure TrieSt where
  strings : Strbuf
  nodes_count : Nat
  children_count : Nat
  values_count : Nat

/-- The C library binary search `bsearch(3)` (as used via `bsearch` and
`xbsearch_r`): return the index of an element of `arr` on which the
comparator answers 0, probing the midpoint of the window `[l, u)`.  `fuel`
only bounds the recursion depth and is chosen large enough at the entry
point (`bsearchIdx`). -/
def bsearchGo {α : Type} (d : α) (cmp : α → Int) (arr : List α) :
    Nat → Nat → Nat → Option Nat
  | 0, _, _ => none
  | Nat.succ fuel, l, u =>
    if l < u then
      if cmp (arr.getD ((l + u) / 2) d) < 0 then
        bsearchGo d cmp arr fuel l ((l + u) / 2)
      else if 0 < cmp (arr.getD ((l + u) / 2) d) then
        bsearchGo d cmp arr fuel ((l + u) / 2 + 1) u
      else some ((l + u) / 2)
    else none

def bsearchIdx {α : Type} (d : α) (cmp : α → Int) (arr : List α) : Option Nat :=
  bsearchGo d cmp arr (arr.length + 1) 0 arr.length

/-- C `strcmp` on NUL-free byte lists (the implicit NUL terminator is the end
of the list): negative, zero or positive according to the first differing
byte. -/
def strcmpNat : List Nat → List Nat → Int
  | [], [] => 0
  | [], b :: _ => -(b : Int)
  | a :: _, [] => (a : Int)
  | a :: as, b :: bs => if a = b then strcmpNat as bs else (a : Int) - (b : Int)

/-- `trie_node_add_value` (lines 136-164): intern `key` and `value`, then
binary-search the values array for an existing entry.  The C code fills in
`search.value_off = k`, but the comparator `trie_values_cmp` compares the
strings at `key_off`, so the actual lookup key is the indeterminate
(uninitialized) stack value of `search.key_off`; that value is made explicit
here as the parameter `g`.  On a hit the entry's value offset is replaced in
place, otherwise a new entry is appended and the array re-sorted by key
string (`qsort_r` with `trie_values_cmp`). -/
def trie_node_add_value (st : TrieSt) (node : TrieNode) (key value : List Nat) (g : Nat) :
    TrieSt × TrieNode :=
  let r1 := strbuf_add_string st.strings key
  let r2 := strbuf_add_string r1.1 value
  let sb := r2.1
  let gs := getString sb.buf g
  match bsearchIdx (0, 0) (fun e => strcmpNat gs (getString sb.buf e.1)) node.values with
  | some i =>
    ({ st with strings := sb },
     TrieNode.mk node.prefix_off node.children
       (node.values.set i ((node.values.getD i (0, 0)).1, r2.2)))
  | none =>
    ({ st with strings := sb, values_count := st.values_count + 1 },
     TrieNode.mk node.prefix_off node.children
       (List.insertionSort
         (fun a b => strcmpNat (getString sb.buf a.1) (getString sb.buf b.1) ≤ 0)
         (node.values ++ [(r1.2, r2.2)])))

/-- `node_add_child` (lines 85-104): extend the children array by `(c, child)`
and re-sort it by discriminator byte (`qsort` with `trie_children_cmp`),
bumping the trie's children and nodes counters. -/
def node_add_child (st : TrieSt) (node child : TrieNode) (c : Nat) : TrieSt × TrieNode :=
  ({ st with children_count := st.children_count + 1, nodes_count := st.nodes_count + 1 },
   TrieNode.mk node.prefix_off
     (List.insertionSort (fun a b => a.1 ≤ b.1) (node.children ++ [(c, child)]))
     node.values)

/-- `node_lookup` (lines 106-115): `bsearch` over the sorted children array by
discriminator byte; returns the index of the matching entry (the C function
returns the child pointer stored there). -/
def node_lookup (node : TrieNode) (c : Nat) : Option Nat :=
  bsearchIdx (0, TrieNode.mk 0 [] [])
    (fun e : Nat × TrieNode => (c : Int) - (e.1 : Int)) node.children

/-- The prefix scan of `trie_insert`'s loop (line 176): the first position `p`
whose prefix byte `P[p]` is non-NUL and differs from `search[i + p]` (a read
past the end of `r` yields the pattern's NUL terminator); `none` when the
whole prefix matches, i.e. the loop runs to the prefix's NUL. -/
def prefixMismatch : List Nat → List Nat → Option Nat
  | [], _ => none
  | a :: P, r => if a = r.headD 0 then (prefixMismatch P r.tail).map (· + 1) else some 0

/-- The node split of `trie_insert` (lines 183-217): move the node's children,
values and the prefix tail from position `p + 1` on into a freshly allocated
child, intern the head `P[0..p)` as the node's new prefix, clear the node's
arrays and attach the new child under discriminator `P[p]`. -/
def trie_node_split (st : TrieSt) (node : TrieNode) (p : Nat) : TrieSt × TrieNode :=
  let P := getString st.strings.buf node.prefix_off
  let child := TrieNode.mk (node.prefix_off + p + 1) node.children node.values
  let r := strbuf_add_string st.strings (P.take p)
  node_add_child { st with strings := r.1 } (TrieNode.mk r.2 [] []) child (P.getD p 0)

/-- The descent tail of one `trie_insert` loop iteration (lines 221-248),
acting on the remaining pattern `rem` (`search + i`): if the pattern is
exhausted the value is recorded at this node; otherwise descend into the
child for the next byte `c`, creating a new leaf (whose prefix is the rest of
the pattern) when no child exists.  `recur` is the continuation running the
next loop iteration.  In C the parent's child entry aliases the child
pointer, so recording the value on a new leaf before attaching it is the
functional rendering of attach-then-record in the source. -/
def trie_insert_desc (recur : TrieSt → TrieNode → List Nat → TrieSt × TrieNode)
    (st : TrieSt) (node : TrieNode) (rem key value : List Nat) (g : Nat) :
    TrieSt × TrieNode :=
  match rem with
  | [] => trie_node_add_value st node key value g
  | c :: rest =>
    match node_lookup node c with
    | some i =>
      let r := recur st (node.children.getD i (0, TrieNode.mk 0 [] [])).2 rest
      (r.1, TrieNode.mk node.prefix_off (node.children.set i (c, r.2)) node.values)
    | none =>
      let ra := strbuf_add_string st.strings rest
      let rv := trie_node_add_value { st with strings := ra.1 }
        (TrieNode.mk ra.2 [] []) key value g
      node_add_child rv.1 node rv.2 c

/-- `trie_insert` (lines 166-252) by loop iteration: each iteration first
compares the node prefix against the pattern, splitting the node at the first
mismatch, then descends.  `fuel` bounds the number of loop iterations; every
iteration that loops again consumes at least one pattern byte, so
`search.length + 1` iterations always suffice (see `trie_insert`). -/
def trie_insert_go : Nat → TrieSt → TrieNode → List Nat → List Nat → List Nat → Nat →
    TrieSt × TrieNode
  | 0, st, node, _, _, _, _ => (st, node)
  | Nat.succ fuel, st, node, search, key, value, g =>
    let P := getString st.strings.buf node.prefix_off
    match prefixMismatch P search with
    | some p =>
      let r := trie_node_split st node p
      trie_insert_desc (fun s n rm => trie_insert_go fuel s n rm key value g)
        r.1 r.2 (search.drop p) key value g
    | none =>
      trie_insert_desc (fun s n rm => trie_insert_go fuel s n rm key value g)
        st node (search.drop P.length) key value g

def trie_insert (st : TrieSt) (node : TrieNode) (search key value : List Nat) (g : Nat) :
    TrieSt × TrieNode :=
  trie_insert_go (search.length + 1) st node search key value g

/-- The trie as initialised by `adm_hwdb` (lines 486-505): a fresh string
pool and the counters with `nodes_count` already bumped for the root. -/
def trie_init : TrieSt :=
  ⟨strbuf_new, 1, 0, 0⟩

/-- The zeroed root node allocated by `adm_hwdb` (line 500). -/
def trie_init_root : TrieNode :=
  TrieNode.mk 0 [] []

/-- Run a sequence of inserts `(pattern, key, value, g)` against a trie state
and root node, as the import loop does; `g` is the per-call indeterminate
value of `search.key_off` in `trie_node_add_value`. -/
def run_inserts (t : TrieSt × TrieNode)
    (ops : List (List Nat × List Nat × List Nat × Nat)) : TrieSt × TrieNode :=
  ops.foldl (fun acc op => trie_insert acc.1 acc.2 op.1 op.2.1 op.2.2.1 op.2.2.2) t

/-! ## Text-record parser -/

/-- C `strchr(l, c)` as an index: the position of the first occurrence of the
byte `c` in `l`, if any. -/
def strchrIdx (c : Nat) : List Nat → Option Nat
  | [] => none
  | a :: l => if a = c then some 0 else (strchrIdx c l).map (· + 1)

/-- Parser state of `import_file` (lines 396-444): the current record's match
buffer (`match`, empty meaning no record in progress) and the inserts
performed so far, each a `(pattern, key, value)` triple handed to
`trie_insert`. -/
structure ImportState where
  match_buf : List Nat
  inserts : List (List Nat × List Nat × List Nat)

/-- The handling of a content line after the trailing-byte truncation (lines
424-440): the first content line of a record becomes the match pattern; a
subsequent line starting with a space byte is split at its first `=`
(`strchr`), the part before it (leading space included) being the key passed
to `trie_insert` and the part after it the value; lines with no `=`, and
lines neither starting a record nor starting with a space, are ignored. -/
def import_content_line (st : ImportState) (l : List Nat) : ImportState :=
  if st.match_buf = [] then { st with match_buf := l }
  else if l.headD 0 = 32 then
    match strchrIdx 61 l with
    | none => st
    | some j => { st with inserts := st.inserts ++ [(st.match_buf, l.take j, l.drop (j + 1))] }
  else st

/-- One iteration of the `fgets` loop of `import_file` (lines 406-441) on one
raw line (trailing newline byte included whenever one was read): comment
lines are skipped, a blank line ends the record, any other line shorter than
2 bytes is skipped, and otherwise the line's last byte is cut off
unconditionally (`line[len-1] = 0`) before the content is processed. -/
def import_line (st : ImportState) (line : List Nat) : ImportState :=
  if line.headD 0 = 35 then st
  else if line.headD 0 = 10 then { st with match_buf := [] }
  else if line.length < 2 then st
  else import_content_line st line.dropLast

/-- The inserts performed by `import_file` on a file given as raw lines. -/
def import_file_inserts (lines : List (List Nat)) :
    List (List Nat × List Nat × List Nat) :=
  (lines.foldl import_line ⟨[], []⟩).inserts

/-- The raw lines of one input record: a first match line `m1`, further match
lines `ms`, then value lines `k=v`, each line with its trailing newline. -/
def record_lines (m1 : List Nat) (ms : List (List Nat))
    (vs : List (List Nat × List Nat)) : List (List Nat) :=
  (m1 ++ [10]) :: (ms.map (fun m => m ++ [10]) ++
    vs.map (fun kv => kv.1 ++ [61] ++ kv.2 ++ [10]))

/-! ## Serializer error handling -/

/-- The error-handling tail of `trie_store` (lines 374-381), with the stream
abstracted: `ferror_res` is what `ferror` returns after all writes (non-zero
exactly when some write failed), `errno_v` the current `errno`, and
`rename_fails` whether `rename(filename_tmp, filename)` fails.  The result is
the pair (temporary file unlinked?, `err` as returned to the caller). -/
def trie_store_result (ferror_res : Nat) (errno_v : Nat) (rename_fails : Bool) :
    Bool × Int :=
  let err0 : Int := Int.ofNat ferror_res
  let err : Int := if err0 ≠ 0 then -(Int.ofNat errno_v) else err0
  if err < 0 ∨ rename_fails then (true, err) else (false, err)

/-! ## Parser lemmas -/

theorem headD_append_left {k r : List Nat} (hk : k ≠ []) (d : Nat) :
    (k ++ r).headD d = k.headD d := by
  cases k with
  | nil => exact absurd rfl hk
  | cons a l => simp

theorem strchrIdx_append (k v : List Nat) (he : 61 ∉ k) :
    strchrIdx 61 (k ++ 61 :: v) = some k.length := by
  induction k with
  | nil => simp [strchrIdx]
  | cons a k ih =>
    have ha : a ≠ 61 := by
      intro h
      exact he (by simp [h])
    rw [List.cons_append, strchrIdx, if_neg ha]
    rw [ih (fun h => he (by simp [h]))]
    simp

theorem import_value_line_eq (st : ImportState) (k v : List Nat)
    (hk : k ≠ []) (hsp : k.headD 0 = 32) (he : 61 ∉ k) (hm : st.match_buf ≠ []) :
    import_line st (k ++ [61] ++ v ++ [10])
      = { st with inserts := st.inserts ++ [(st.match_buf, k, v)] } := by
  unfold import_line
  rw [show k ++ [61] ++ v ++ [10] = k ++ ([61] ++ v ++ [10]) by simp]
  rw [headD_append_left hk, hsp]
  rw [if_neg (by omega), if_neg (by omega)]
  rw [if_neg (by
    simp only [List.length_append, List.length_cons, List.length_nil]
    omega)]
  rw [show k ++ ([61] ++ v ++ [10]) = (k ++ [61] ++ v) ++ [10] by simp]
  rw [List.dropLast_concat]
  unfold import_content_line
  rw [if_neg hm]
  rw [show k ++ [61] ++ v = k ++ 61 :: v by simp]
  rw [headD_append_left hk, hsp, if_pos rfl]
  rw [strchrIdx_append k v he]
  have ht : List.take k.length (k ++ 61 :: v) = k := by
    simp
  have hd : List.drop (k.length + 1) (k ++ 61 :: v) = v := by
    rw [show k ++ 61 :: v = (k ++ [61]) ++ v by simp]
    rw [show k.length + 1 = (k ++ [61]).length by simp]
    exact List.drop_left (k ++ [61]) v
  simp [ht, hd]

theorem import_match_line_skip (st : ImportState) (m : List Nat)
    (h0 : m ≠ []) (h10 : m.headD 0 ≠ 10) (h32 : m.headD 0 ≠ 32)
    (hm : st.match_buf ≠ []) :
    import_line st (m ++ [10]) = st := by
  unfold import_line
  rw [headD_append_left h0]
  by_cases h35 : m.headD 0 = 35
  · rw [if_pos h35]
  · rw [if_neg h35, if_neg h10]
    rw [if_neg (by
      simp only [List.length_append, List.length_cons, List.length_nil]
      have : 1 ≤ m.length := by
        cases m with
        | nil => exact absurd rfl h0
        | cons a l => simp
      omega)]
    rw [List.dropLast_concat]
    unfold import_content_line
    rw [if_neg hm, if_neg h32]

theorem import_first_match (ins : List (List Nat × List Nat × List Nat)) (m1 : List Nat)
    (h0 : m1 ≠ []) (h35 : m1.headD 0 ≠ 35) (h10 : m1.headD 0 ≠ 10) :
    import_line ⟨[], ins⟩ (m1 ++ [10]) = ⟨m1, ins⟩ := by
  unfold import_line
  rw [headD_append_left h0, if_neg h35, if_neg h10]
  rw [if_neg (by
    simp only [List.length_append, List.length_cons, List.length_nil]
    have : 1 ≤ m1.length := by
      cases m1 with
      | nil => exact absurd rfl h0
      | cons a l => simp
    omega)]
  rw [List.dropLast_concat]
  unfold import_content_line
  rw [if_pos rfl]

theorem foldl_import_matches (st : ImportState) (ms : List (List Nat))
    (hm : st.match_buf ≠ [])
    (hms : ∀ m ∈ ms, m ≠ [] ∧ m.headD 0 ≠ 10 ∧ m.headD 0 ≠ 32) :
    (ms.map (fun m => m ++ [10])).foldl import_line st = st := by
  induction ms with
  | nil => simp
  | cons m ms ih =>
    obtain ⟨h0, h10, h32⟩ := hms m (by simp)
    rw [List.map_cons, List.foldl_cons, import_match_line_skip st m h0 h10 h32 hm]
    exact ih (fun x hx => hms x (by simp [hx]))

theorem foldl_import_values (mb : List Nat)
    (acc : List (List Nat × List Nat × List Nat)) (vs : List (List Nat × List Nat))
    (hm : mb ≠ [])
    (hvs : ∀ kv ∈ vs, kv.1 ≠ [] ∧ kv.1.headD 0 = 32 ∧ 61 ∉ kv.1) :
    (vs.map (fun kv => kv.1 ++ [61] ++ kv.2 ++ [10])).foldl import_line ⟨mb, acc⟩
      = ⟨mb, acc ++ vs.map (fun kv => (mb, kv.1, kv.2))⟩ := by
  induction vs generalizing acc with
  | nil => simp
  | cons kv vs ih =>
    obtain ⟨h0, h32, h61⟩ := hvs kv (by simp)
    rw [List.map_cons, List.foldl_cons,
      import_value_line_eq ⟨mb, acc⟩ kv.1 kv.2 h0 h32 h61 hm]
    rw [ih (acc ++ [(mb, kv.1, kv.2)]) (fun x hx => hvs x (by simp [hx]))]
    simp

theorem import_line_content (st : ImportState) (l : List Nat)
    (h35 : l.headD 0 ≠ 35) (h10 : l.headD 0 ≠ 10) (hlen : 2 ≤ l.length) :
    import_line st l = import_content_line st l.dropLast := by
  unfold import_line
  rw [if_neg h35, if_neg h10, if_neg (by omega)]

theorem headD_dropLast_append (line : List Nat) (h : 2 ≤ line.length) (x : Nat) :
    (line.dropLast ++ [x]).headD 0 = line.headD 0 := by
  cases line with
  | nil => simp at h
  | cons a l =>
    cases l with
    | nil => simp at h
    | cons b t => rfl

/-! ## Claims about the parser and the serializer's error handling -/

/-- Claim C2, counterexample: for the value line " K=V" (bytes 32 75 61 86)
after match line "A", the key recorded in the insert is [32, 75] -- the
leading space byte is NOT stripped before the split at the first `=`, so
the key "K" without the space is never recorded. -/
theorem c2_counterexample :
    import_file_inserts [[65, 10], [32, 75, 61, 86, 10]]
      = [([65], [32, 75], [86])] ∧
    ([65], [75], [86]) ∉ import_file_inserts [[65, 10], [32, 75, 61, 86, 10]] := by
  constructor <;> decide

/-- Claim C2, amended: the parser does not strip the leading space of a value
line; it splits the whole line (the leading space included) at the first `=`,
so the key recorded at the trie node is the byte sequence " KEY" with the
leading space byte.  Formally: for a value line whose pre-`=` segment is `k`
(a nonempty byte string starting with the space byte and containing no `=`),
the insert performed records exactly `k`, leading space included, as key. -/
theorem c2_amended_key_includes_space (st : ImportState) (k v : List Nat)
    (hk : k ≠ []) (hsp : k.headD 0 = 32) (he : 61 ∉ k) (hm : st.match_buf ≠ []) :
    import_line st (k ++ [61] ++ v ++ [10])
      = { st with inserts := st.inserts ++ [(st.match_buf, k, v)] } :=
  import_value_line_eq st k v hk hsp he hm

/-- Witness for `c2_amended_key_includes_space` at the value line " K=V". -/
theorem c2_witness :
    (([32, 75] : List Nat) ≠ [] ∧ ([32, 75] : List Nat).headD 0 = 32 ∧
      61 ∉ ([32, 75] : List Nat) ∧ (ImportState.mk [65] []).match_buf ≠ []) ∧
    import_line ⟨[65], []⟩ ([32, 75] ++ [61] ++ [86] ++ [10])
      = ⟨[65], [([65], [32, 75], [86])]⟩ :=
  ⟨⟨by decide, by decide, by decide, by decide⟩,
   c2_amended_key_includes_space ⟨[65], []⟩ [32, 75] [86]
     (by decide) (by decide) (by decide) (by decide)⟩

/-- Claim C5, counterexample: for a record with the two match lines "A" and
"B" and the value line " K=V", the compiler performs only the single insert
for "A"; the cross-product insert for the second match line "B" is never
performed, refuting the claim. -/
theorem c5_counterexample :
    import_file_inserts [[65, 10], [66, 10], [32, 75, 61, 86, 10]]
      = [([65], [32, 75], [86])] ∧
    ([66], [32, 75], [86]) ∉ import_file_inserts [[65, 10], [66, 10], [32, 75, 61, 86, 10]] := by
  constructor <;> decide

/-- Claim C5, amended: only the first match line of a record is retained (the
single-slot `match` buffer); for a record with match lines M1..Mn and value
lines K1=V1..Km=Vm the compiler performs insert(M1, Kj, Vj) for every value
line j, and no inserts for the subsequent match lines M2..Mn. -/
theorem c5_amended_first_match_only (m1 : List Nat) (ms : List (List Nat))
    (vs : List (List Nat × List Nat))
    (h0 : m1 ≠ []) (h35 : m1.headD 0 ≠ 35) (h10 : m1.headD 0 ≠ 10)
    (hms : ∀ m ∈ ms, m ≠ [] ∧ m.headD 0 ≠ 10 ∧ m.headD 0 ≠ 32)
    (hvs : ∀ kv ∈ vs, kv.1 ≠ [] ∧ kv.1.headD 0 = 32 ∧ 61 ∉ kv.1) :
    import_file_inserts (record_lines m1 ms vs)
      = vs.map (fun kv => (m1, kv.1, kv.2)) := by
  unfold import_file_inserts record_lines
  rw [List.foldl_cons, import_first_match [] m1 h0 h35 h10]
  rw [List.foldl_append]
  rw [foldl_import_matches ⟨m1, []⟩ ms h0 hms]
  rw [foldl_import_values m1 [] vs h0 hvs]
  simp

/-- Witness for `c5_amended_first_match_only` on the record "A", "B",
" K=V". -/
theorem c5_witness :
    (([65] : List Nat) ≠ [] ∧ ([65] : List Nat).headD 0 ≠ 35 ∧
      ([65] : List Nat).headD 0 ≠ 10 ∧
      (∀ m ∈ [[66]], m ≠ [] ∧ List.headD m 0 ≠ 10 ∧ List.headD m 0 ≠ 32) ∧
      (∀ kv ∈ [([32, 75], [86])],
        kv.1 ≠ ([] : List Nat) ∧ List.headD kv.1 0 = 32 ∧ 61 ∉ kv.1)) ∧
    import_file_inserts (record_lines [65] [[66]] [([32, 75], [86])])
      = [([65], [32, 75], [86])] :=
  ⟨⟨by decide, by decide, by decide, by decide, by decide⟩,
   c5_amended_first_match_only [65] [[66]] [([32, 75], [86])]
     (by decide) (by decide) (by decide) (by decide) (by decide)⟩

/-- Claim C10: CONFIRMED.  A raw line that is not a comment and not blank is
skipped when shorter than 2 bytes, and otherwise has its last byte removed
unconditionally (`line[len-1] = 0`) before being processed as a match or
value line; consequently a final line lacking the trailing newline is handled
exactly like the same content with its last byte replaced by a newline (its
last content byte is lost). -/
theorem c10_unconditional_truncation (st : ImportState) (line : List Nat)
    (h35 : line.headD 0 ≠ 35) (h10 : line.headD 0 ≠ 10) :
    (line.length < 2 → import_line st line = st) ∧
    (2 ≤ line.length →
      import_line st line = import_content_line st line.dropLast ∧
      import_line st line = import_line st (line.dropLast ++ [10])) := by
  constructor
  · intro h
    unfold import_line
    rw [if_neg h35, if_neg h10, if_pos h]
  · intro h
    refine ⟨import_line_content st line h35 h10 h, ?_⟩
    rw [import_line_content st line h35 h10 h]
    rw [import_line_content st (line.dropLast ++ [10])
      (by rw [headD_dropLast_append line h]; exact h35)
      (by rw [headD_dropLast_append line h]; exact h10)
      (by simp only [List.length_append, List.length_dropLast, List.length_cons,
        List.length_nil]; omega)]
    rw [List.dropLast_concat]

/-- Witness for `c10_unconditional_truncation` on the newline-less final line
"ab": it is processed as if it were "a\n". -/
theorem c10_witness :
    (([97, 98] : List Nat).headD 0 ≠ 35 ∧ ([97, 98] : List Nat).headD 0 ≠ 10 ∧
      2 ≤ ([97, 98] : List Nat).length) ∧
    (import_line ⟨[65], []⟩ [97, 98] = import_content_line ⟨[65], []⟩ [97] ∧
      import_line ⟨[65], []⟩ [97, 98] = import_line ⟨[65], []⟩ ([97] ++ [10])) :=
  ⟨⟨by decide, by decide, by decide⟩,
   (c10_unconditional_truncation ⟨[65], []⟩ [97, 98] (by decide) (by decide)).2
     (by decide)⟩

/-! ## Claims about the trie and the serializer tail -/

/-- Claim C1: the claim is right and the code is wrong (code bug).
`trie_node_add_value` initializes `search.value_off = k`, but its comparator
`trie_values_cmp` reads `key_off`, so the lookup for an existing entry with
the same key compares the string at the indeterminate (uninitialized) stack
value of `search.key_off`.  Inserting pattern "x" with K=1 and then K=2 (the
indeterminate offset here being 0, which denotes the empty string) leaves TWO
value entries with key "K" on the terminal node -- the stale entry with value
"1" and a fresh one with value "2" -- instead of one entry whose `value_off`
was replaced in place, contradicting the code's own comment "replace existing
earlier key with new value". -/
theorem c1_overwrite_duplicates_key :
    (((run_inserts (trie_init, trie_init_root)
        [([120], [75], [49], 0), ([120], [75], [50], 0)]).2.children.getD 0
          (0, TrieNode.mk 0 [] [])).2.values.map
        (fun kv => getString (run_inserts (trie_init, trie_init_root)
          [([120], [75], [49], 0), ([120], [75], [50], 0)]).1.strings.buf kv.1)
      = [[75], [75]]) ∧
    (((run_inserts (trie_init, trie_init_root)
        [([120], [75], [49], 0), ([120], [75], [50], 0)]).2.children.getD 0
          (0, TrieNode.mk 0 [] [])).2.values.map
        (fun kv => getString (run_inserts (trie_init, trie_init_root)
          [([120], [75], [49], 0), ([120], [75], [50], 0)]).1.strings.buf kv.2)
      = [[49], [50]]) := by
  constructor <;> decide

/-- Claim C3: the claim is right and the code is wrong (code bug) in the
rename half.  When every write succeeded (`ferror` returns 0) but the final
`rename` fails, `trie_store` unlinks the temporary file yet returns `err = 0`
(success) to its caller, so no error is surfaced.  (When a write fails,
`err = -errno < 0` is returned as the claim states.) -/
theorem c3_rename_failure_returns_success :
    trie_store_result 0 2 true = (true, 0) ∧
      ¬ (trie_store_result 0 2 true).2 < 0 := by
  constructor <;> decide

/-! ## Binary search lemmas -/

theorem bsearchGo_some {α : Type} (d : α) (cmp : α → Int) (arr : List α) :
    ∀ fuel l u i, bsearchGo d cmp arr fuel l u = some i →
      l ≤ i ∧ i < u ∧ cmp (arr.getD i d) = 0 := by
  intro fuel
  induction fuel with
  | zero =>
    intro l u i h
    simp [bsearchGo] at h
  | succ fuel ih =>
    intro l u i h
    rw [bsearchGo] at h
    by_cases hlt : l < u
    · rw [if_pos hlt] at h
      by_cases hc1 : cmp (arr.getD ((l + u) / 2) d) < 0
      · rw [if_pos hc1] at h
        obtain ⟨h1, h2, h3⟩ := ih l ((l + u) / 2) i h
        exact ⟨h1, by omega, h3⟩
      · rw [if_neg hc1] at h
        by_cases hc2 : 0 < cmp (arr.getD ((l + u) / 2) d)
        · rw [if_pos hc2] at h
          obtain ⟨h1, h2, h3⟩ := ih ((l + u) / 2 + 1) u i h
          exact ⟨by omega, h2, h3⟩
        · rw [if_neg hc2] at h
          have hi : i = (l + u) / 2 := (Option.some_inj.mp h).symm
          subst hi
          exact ⟨by omega, by omega, by omega⟩
    · rw [if_neg hlt] at h
      simp at h

theorem pairwise_fst_mono {arr : List (Nat × TrieNode)}
    (hs : arr.Pairwise (fun a b => a.1 < b.1)) {i j : Nat} (hij : i ≤ j)
    (hj : j < arr.length) (d : Nat × TrieNode) :
    (arr.getD i d).1 ≤ (arr.getD j d).1 := by
  rcases Nat.eq_or_lt_of_le hij with rfl | hlt
  · exact le_refl _
  · have hi : i < arr.length := by omega
    rw [List.getD_eq_get _ _ hi, List.getD_eq_get _ _ hj]
    exact le_of_lt (List.pairwise_iff_get.mp hs ⟨i, hi⟩ ⟨j, hj⟩ hlt)

theorem bsearchGo_children_none (c : Nat) (arr : List (Nat × TrieNode))
    (hs : arr.Pairwise (fun a b => a.1 < b.1)) :
    ∀ fuel l u, u ≤ arr.length → u - l < fuel →
      bsearchGo (0, TrieNode.mk 0 [] [])
        (fun e : Nat × TrieNode => (c : Int) - (e.1 : Int)) arr fuel l u = none →
      ∀ j, l ≤ j → j < u → (arr.getD j (0, TrieNode.mk 0 [] [])).1 ≠ c := by
  intro fuel
  induction fuel with
  | zero =>
    intro l u hu hf h j hj1 hj2
    omega
  | succ fuel ih =>
    intro l u hu hf h j hj1 hj2
    rw [bsearchGo] at h
    have hlt : l < u := by omega
    rw [if_pos hlt] at h
    by_cases hc1 : (c : Int) - (((arr.getD ((l + u) / 2) (0, TrieNode.mk 0 [] [])).1 : Nat) : Int) < 0
    · rw [if_pos hc1] at h
      by_cases hji : j < (l + u) / 2
      · exact ih l ((l + u) / 2) (by omega) (by omega) h j hj1 hji
      · intro heq
        have hmono := pairwise_fst_mono hs (i := (l + u) / 2) (j := j)
          (by omega) (by omega) (0, TrieNode.mk 0 [] [])
        omega
    · rw [if_neg hc1] at h
      by_cases hc2 : 0 < (c : Int) - (((arr.getD ((l + u) / 2) (0, TrieNode.mk 0 [] [])).1 : Nat) : Int)
      · rw [if_pos hc2] at h
        by_cases hji : (l + u) / 2 + 1 ≤ j
        · exact ih ((l + u) / 2 + 1) u (by omega) (by omega) h j hji hj2
        · intro heq
          have hmono := pairwise_fst_mono hs (i := j) (j := (l + u) / 2)
            (by omega) (by omega) (0, TrieNode.mk 0 [] [])
          omega
      · rw [if_neg hc2] at h
        simp at h

theorem node_lookup_some {node : TrieNode} {c : Nat} {i : Nat}
    (h : node_lookup node c = some i) :
    i < node.children.length ∧
      (node.children.getD i (0, TrieNode.mk 0 [] [])).1 = c := by
  unfold node_lookup bsearchIdx at h
  obtain ⟨h1, h2, h3⟩ := bsearchGo_some _ _ _ _ _ _ _ h
  exact ⟨h2, by omega⟩

theorem node_lookup_none {node : TrieNode} {c : Nat}
    (hs : node.children.Pairwise (fun a b => a.1 < b.1))
    (h : node_lookup node c = none) :
    ∀ e ∈ node.children, e.1 ≠ c := by
  intro e he
  obtain ⟨⟨j, hj⟩, rfl⟩ := List.mem_iff_get.mp he
  have := bsearchGo_children_none c node.children hs (node.children.length + 1)
    0 node.children.length (le_refl _) (by omega) h j (by omega) hj
  rwa [List.getD_eq_get _ _ hj] at this

/-! ## Prefix scan lemmas -/

theorem getD_tail (r : List Nat) (q : Nat) : r.tail.getD q 0 = r.getD (q + 1) 0 := by
  cases r <;> simp

theorem headD_eq_getD (r : List Nat) : r.headD 0 = r.getD 0 0 := by
  cases r <;> simp

theorem getD_eq_of_drop_cons {l : List Nat} {p c : Nat} {rest : List Nat}
    (h : l.drop p = c :: rest) : l.getD p 0 = c := by
  induction p generalizing l with
  | zero =>
    rw [List.drop_zero] at h
    subst h
    simp
  | succ p ih =>
    cases l with
    | nil => simp at h
    | cons a l =>
      rw [List.drop_succ_cons] at h
      simpa using ih h

theorem prefixMismatch_eq_some (P r : List Nat) (p : Nat)
    (h1 : p < P.length) (h2 : P.getD p 0 ≠ r.getD p 0)
    (h3 : ∀ q, q < p → P.getD q 0 = r.getD q 0) :
    prefixMismatch P r = some p := by
  induction P generalizing r p with
  | nil => simp at h1
  | cons a P ih =>
    rw [prefixMismatch]
    cases p with
    | zero =>
      have ha : a ≠ r.headD 0 := by
        intro he
        exact h2 (he.trans (headD_eq_getD r))
      rw [if_neg ha]
    | succ p =>
      have ha : a = r.headD 0 := by
        have h0 : a = r.getD 0 0 := h3 0 (by omega)
        rw [headD_eq_getD r]
        exact h0
      rw [if_pos ha]
      rw [ih r.tail p (by simpa using h1) (by simpa [getD_tail] using h2)
        (fun q hq => by
          have := h3 (q + 1) (by omega)
          simpa [getD_tail] using this)]
      rfl

theorem prefixMismatch_eq_none (P r : List Nat)
    (h : ∀ q, q < P.length → P.getD q 0 = r.getD q 0) :
    prefixMismatch P r = none := by
  induction P generalizing r with
  | nil => rfl
  | cons a P ih =>
    rw [prefixMismatch]
    have ha : a = r.headD 0 := by
      have h0 : a = r.getD 0 0 := h 0 (by simp)
      rw [headD_eq_getD r]
      exact h0
    rw [if_pos ha]
    rw [ih r.tail (fun q hq => by
      have := h (q + 1) (by simpa using Nat.succ_lt_succ hq)
      simpa [getD_tail] using this)]
    rfl

/-! ## Shape lemmas for the trie operations -/

theorem trie_node_add_value_shape (st : TrieSt) (node : TrieNode)
    (key value : List Nat) (g : Nat) :
    (trie_node_add_value st node key value g).2.prefix_off = node.prefix_off ∧
    (trie_node_add_value st node key value g).2.children = node.children ∧
    BufExtends st.strings.buf (trie_node_add_value st node key value g).1.strings.buf ∧
    (trie_node_add_value st node key value g).1.nodes_count = st.nodes_count ∧
    (trie_node_add_value st node key value g).1.children_count = st.children_count := by
  have hext : BufExtends st.strings.buf
      (strbuf_add_string (strbuf_add_string st.strings key).1 value).1.buf :=
    bufExtends_trans (strbuf_add_extends _ _) (strbuf_add_extends _ _)
  simp only [trie_node_add_value]
  split
  · exact ⟨rfl, rfl, hext, rfl, rfl⟩
  · exact ⟨rfl, rfl, hext, rfl, rfl⟩

theorem node_add_child_shape (st : TrieSt) (node child : TrieNode) (c : Nat) :
    (node_add_child st node child c).2.prefix_off = node.prefix_off ∧
    (node_add_child st node child c).2.values = node.values ∧
    (node_add_child st node child c).1.strings = st.strings ∧
    (node_add_child st node child c).1.nodes_count = st.nodes_count + 1 ∧
    (node_add_child st node child c).1.children_count = st.children_count + 1 :=
  ⟨rfl, rfl, rfl, rfl, rfl⟩

theorem mem_node_add_child {st : TrieSt} {node child : TrieNode} {c : Nat}
    {x : Nat × TrieNode} :
    x ∈ (node_add_child st node child c).2.children ↔
      x ∈ node.children ∨ x = (c, child) := by
  unfold node_add_child
  show x ∈ List.insertionSort _ (node.children ++ [(c, child)]) ↔ _
  rw [(List.perm_insertionSort _ _).mem_iff]
  simp

theorem node_lookup_singleton_ne {poff : Nat} {vals : List (Nat × Nat)}
    {d : Nat} {child : TrieNode} {c : Nat} (h : c ≠ d) :
    node_lookup (TrieNode.mk poff [(d, child)] vals) c = none := by
  unfold node_lookup bsearchIdx
  show bsearchGo _ _ _ 2 0 1 = none
  rw [bsearchGo]
  rcases Nat.lt_or_ge c d with hlt | hge
  · rw [if_pos (by omega), if_pos (by
      show (c : Int) - (((d, child).1 : Nat) : Int) < 0
      simp only
      omega)]
    rw [bsearchGo]
    simp
  · have hgt : d < c := by omega
    rw [if_pos (by omega)]
    rw [if_neg (by
      show ¬ (c : Int) - (((d, child).1 : Nat) : Int) < 0
      simp only
      omega)]
    rw [if_pos (by
      show 0 < (c : Int) - (((d, child).1 : Nat) : Int)
      simp only
      omega)]
    rw [bsearchGo]
    simp

/-! ## The split specification -/

theorem trie_node_split_spec (st : TrieSt) (node : TrieNode) (p : Nat)
    (hwf : StrbufWF st.strings) (ht : Terminated st.strings.buf node.prefix_off)
    (hp : p < (getString st.strings.buf node.prefix_off).length) :
    StrbufWF (trie_node_split st node p).1.strings ∧
    BufExtends st.strings.buf (trie_node_split st node p).1.strings.buf ∧
    (trie_node_split st node p).2.children
      = [((getString st.strings.buf node.prefix_off).getD p 0,
          TrieNode.mk (node.prefix_off + p + 1) node.children node.values)] ∧
    (trie_node_split st node p).2.values = [] ∧
    ReadsAt (trie_node_split st node p).1.strings.buf
      (trie_node_split st node p).2.prefix_off
      ((getString st.strings.buf node.prefix_off).take p) ∧
    getString (trie_node_split st node p).1.strings.buf (node.prefix_off + p + 1)
      = (getString st.strings.buf node.prefix_off).drop (p + 1) ∧
    Terminated (trie_node_split st node p).1.strings.buf (node.prefix_off + p + 1) := by
  have hs0 : 0 ∉ (getString st.strings.buf node.prefix_off).take p := by
    intro hmem
    exact getString_all_ne_zero 0 (List.take_subset _ _ hmem) rfl
  obtain ⟨hwf2, hra⟩ := strbuf_add_spec st.strings
    ((getString st.strings.buf node.prefix_off).take p) hwf hs0
  have hext := strbuf_add_extends st.strings
    ((getString st.strings.buf node.prefix_off).take p)
  have hshift : getString st.strings.buf (node.prefix_off + (p + 1))
      = (getString st.strings.buf node.prefix_off).drop (p + 1) :=
    getString_shift (by omega)
  have hterm0 : Terminated st.strings.buf (node.prefix_off + (p + 1)) :=
    terminated_shift ht (by omega)
  refine ⟨hwf2, hext, rfl, rfl, hra, ?_, ?_⟩
  · exact (getString_mono hterm0 hext).trans hshift
  · exact terminated_mono hterm0 hext

/-- Claim C7: CONFIRMED.  When `trie_insert` splits a node at mismatch
position `p`, immediately after the split (lines 183-217) the newly allocated
child holds the old node's entire children array, entire values array and the
tail of the old prefix from position `p + 1` on (the byte `P[p]` becoming the
edge discriminator), while the split node itself has prefix `P[0..p)` (the
head before the mismatch, freshly interned), exactly one child keyed by
`P[p]`, and no values. -/
theorem c7_split_moves_children_values (st : TrieSt) (node : TrieNode) (p : Nat)
    (hwf : StrbufWF st.strings) (ht : Terminated st.strings.buf node.prefix_off)
    (hp : p < (getString st.strings.buf node.prefix_off).length) :
    ∃ ch, (trie_node_split st node p).2.children
        = [((getString st.strings.buf node.prefix_off).getD p 0, ch)] ∧
      ch.children = node.children ∧
      ch.values = node.values ∧
      getString (trie_node_split st node p).1.strings.buf ch.prefix_off
        = (getString st.strings.buf node.prefix_off).drop (p + 1) ∧
      getString (trie_node_split st node p).1.strings.buf
          (trie_node_split st node p).2.prefix_off
        = (getString st.strings.buf node.prefix_off).take p ∧
      (trie_node_split st node p).2.values = [] := by
  obtain ⟨hwf2, hext, hch, hv, hra, hgs, hterm⟩ := trie_node_split_spec st node p hwf ht hp
  have hs0 : 0 ∉ (getString st.strings.buf node.prefix_off).take p := by
    intro hmem
    exact getString_all_ne_zero 0 (List.take_subset _ _ hmem) rfl
  exact ⟨TrieNode.mk (node.prefix_off + p + 1) node.children node.values,
    hch, rfl, rfl, hgs, hra.getString_eq hs0, hv⟩

/-- Witness for `c7_split_moves_children_values`: splitting a node whose
prefix "bc" sits at pool offset 1, at mismatch position 1. -/
theorem c7_witness :
    (StrbufWF (strbuf_add_string strbuf_new [98, 99]).1 ∧
      Terminated (strbuf_add_string strbuf_new [98, 99]).1.buf 1 ∧
      1 < (getString (strbuf_add_string strbuf_new [98, 99]).1.buf 1).length) ∧
    (∃ ch, (trie_node_split ⟨(strbuf_add_string strbuf_new [98, 99]).1, 1, 0, 0⟩
          (TrieNode.mk 1 [] [(4, 5)]) 1).2.children
        = [((getString (strbuf_add_string strbuf_new [98, 99]).1.buf 1).getD 1 0, ch)] ∧
      ch.children = ([] : List (Nat × TrieNode)) ∧
      ch.values = [(4, 5)] ∧
      getString (trie_node_split ⟨(strbuf_add_string strbuf_new [98, 99]).1, 1, 0, 0⟩
          (TrieNode.mk 1 [] [(4, 5)]) 1).1.strings.buf ch.prefix_off
        = (getString (strbuf_add_string strbuf_new [98, 99]).1.buf 1).drop 2 ∧
      getString (trie_node_split ⟨(strbuf_add_string strbuf_new [98, 99]).1, 1, 0, 0⟩
          (TrieNode.mk 1 [] [(4, 5)]) 1).1.strings.buf
          (trie_node_split ⟨(strbuf_add_string strbuf_new [98, 99]).1, 1, 0, 0⟩
            (TrieNode.mk 1 [] [(4, 5)]) 1).2.prefix_off
        = (getString (strbuf_add_string strbuf_new [98, 99]).1.buf 1).take 1 ∧
      (trie_node_split ⟨(strbuf_add_string strbuf_new [98, 99]).1, 1, 0, 0⟩
          (TrieNode.mk 1 [] [(4, 5)]) 1).2.values = []) :=
  ⟨⟨(strbuf_add_spec strbuf_new [98, 99] strbuf_new_wf (by decide)).1,
    (strbuf_add_spec strbuf_new [98, 99] strbuf_new_wf (by decide)).2.terminated,
    by decide⟩,
   c7_split_moves_children_values ⟨(strbuf_add_string strbuf_new [98, 99]).1, 1, 0, 0⟩
     (TrieNode.mk 1 [] [(4, 5)]) 1
     (strbuf_add_spec strbuf_new [98, 99] strbuf_new_wf (by decide)).1
     (strbuf_add_spec strbuf_new [98, 99] strbuf_new_wf (by decide)).2.terminated
     (by decide)⟩

/-! ## Descent lemmas -/

theorem trie_insert_desc_on_split
    (recur : TrieSt → TrieNode → List Nat → TrieSt × TrieNode)
    (st : TrieSt) (node : TrieNode) (d : Nat) (child : TrieNode)
    (rem key value : List Nat) (g : Nat)
    (hch : node.children = [(d, child)]) (hv : node.values = [])
    (hne : ∀ c rest, rem = c :: rest → c ≠ d) :
    (trie_insert_desc recur st node rem key value g).2.prefix_off = node.prefix_off ∧
    (d, child) ∈ (trie_insert_desc recur st node rem key value g).2.children ∧
    BufExtends st.strings.buf
      (trie_insert_desc recur st node rem key value g).1.strings.buf := by
  cases rem with
  | nil =>
    obtain ⟨hp, hc, hext, _, _⟩ := trie_node_add_value_shape st node key value g
    refine ⟨hp, ?_, hext⟩
    show (d, child) ∈ (trie_node_add_value st node key value g).2.children
    rw [hc, hch]
    simp
  | cons c rest =>
    obtain ⟨o2, cs2, vs2⟩ := node
    simp only [TrieNode.children] at hch
    simp only [TrieNode.values] at hv
    subst hch
    subst hv
    have hl : node_lookup (TrieNode.mk o2 [(d, child)] []) c = none :=
      node_lookup_singleton_ne (hne c rest rfl)
    simp only [trie_insert_desc, hl]
    refine ⟨rfl, ?_, ?_⟩
    · exact mem_node_add_child.mpr (Or.inl (by simp [TrieNode.children]))
    · exact bufExtends_trans (strbuf_add_extends st.strings rest)
        (trie_node_add_value_shape
          { st with strings := (strbuf_add_string st.strings rest).1 }
          (TrieNode.mk (strbuf_add_string st.strings rest).2 [] [])
          key value g).2.2.1

theorem trie_insert_desc_prefix_off
    (recur : TrieSt → TrieNode → List Nat → TrieSt × TrieNode)
    (st : TrieSt) (node : TrieNode) (rem key value : List Nat) (g : Nat) :
    (trie_insert_desc recur st node rem key value g).2.prefix_off
      = node.prefix_off := by
  cases rem with
  | nil => exact (trie_node_add_value_shape st node key value g).1
  | cons c rest =>
    cases hl : node_lookup node c with
    | some i =>
      simp only [trie_insert_desc, hl]
      rfl
    | none =>
      simp only [trie_insert_desc, hl]
      rfl

/-- Claim C4, counterexample: the boundary case "P[p] is the NUL terminator
and pattern[i + p] is not NUL" does NOT split the node.  Insert "abc" with
K=1 and then "abcd" with K=2: at the node whose prefix is "bc" the prefix is
exhausted (P[2] is NUL) while the pattern continues with "d"; the loop exits
without splitting, the node keeps its full prefix "bc" and keeps its value
entry, and the remainder is attached as an ordinary child.  Had the claimed
split happened, the node's values would have been moved away (leaving none)
and its prefix replaced by a freshly interned strict head. -/
theorem c4_counterexample :
    getString (run_inserts (trie_init, trie_init_root)
        [([97, 98, 99], [75], [49], 0), ([97, 98, 99, 100], [75], [50], 0)]).1.strings.buf
      ((run_inserts (trie_init, trie_init_root)
        [([97, 98, 99], [75], [49], 0), ([97, 98, 99, 100], [75], [50], 0)]).2.children.getD 0
          (0, TrieNode.mk 0 [] [])).2.prefix_off = [98, 99] ∧
    ((run_inserts (trie_init, trie_init_root)
        [([97, 98, 99], [75], [49], 0), ([97, 98, 99, 100], [75], [50], 0)]).2.children.getD 0
          (0, TrieNode.mk 0 [] [])).2.values ≠ [] := by
  constructor <;> decide

/-- Claim C4, amended: during insert, comparing the node's prefix `P` against
the remaining pattern, a node split is performed at the first mismatch
position `p` at which `P[p]` is NOT the NUL terminator (including the case
where `pattern[i + p]` is NUL while `P[p]` is not); when `P[p]` is the NUL
terminator the whole prefix has matched and no split is performed, whatever
`pattern[i + p]` is.  The split is observable on the result: the node's
prefix becomes `P[0..p)` and a child keyed `P[p]` carrying the node's old
children, values and prefix tail appears; in the no-mismatch case the node's
prefix offset is untouched. -/
theorem c4_amended_split_condition (st : TrieSt) (node : TrieNode)
    (search key value : List Nat) (g : Nat)
    (hwf : StrbufWF st.strings) (ht : Terminated st.strings.buf node.prefix_off) :
    (∀ p, p < (getString st.strings.buf node.prefix_off).length →
      (getString st.strings.buf node.prefix_off).getD p 0 ≠ search.getD p 0 →
      (∀ q, q < p →
        (getString st.strings.buf node.prefix_off).getD q 0 = search.getD q 0) →
      (getString (trie_insert st node search key value g).1.strings.buf
          (trie_insert st node search key value g).2.prefix_off
        = (getString st.strings.buf node.prefix_off).take p ∧
      ∃ ch, ((getString st.strings.buf node.prefix_off).getD p 0, ch)
          ∈ (trie_insert st node search key value g).2.children ∧
        ch.children = node.children ∧ ch.values = node.values ∧
        getString (trie_insert st node search key value g).1.strings.buf ch.prefix_off
          = (getString st.strings.buf node.prefix_off).drop (p + 1))) ∧
    ((∀ q, q < (getString st.strings.buf node.prefix_off).length →
        (getString st.strings.buf node.prefix_off).getD q 0 = search.getD q 0) →
      (trie_insert st node search key value g).2.prefix_off = node.prefix_off) := by
  constructor
  · intro p hp hne hpre
    have hpm : prefixMismatch (getString st.strings.buf node.prefix_off) search = some p :=
      prefixMismatch_eq_some _ _ _ hp hne hpre
    obtain ⟨hwf2, hext2, hch, hv, hra, hgs, hterm⟩ :=
      trie_node_split_spec st node p hwf ht hp
    have hs0 : 0 ∉ (getString st.strings.buf node.prefix_off).take p := by
      intro hmem
      exact getString_all_ne_zero 0 (List.take_subset _ _ hmem) rfl
    have hunf : trie_insert st node search key value g
        = trie_insert_desc (fun s n rm => trie_insert_go search.length s n rm key value g)
            (trie_node_split st node p).1 (trie_node_split st node p).2
            (search.drop p) key value g := by
      show trie_insert_go (search.length + 1) st node search key value g = _
      rw [show search.length + 1 = Nat.succ search.length from rfl]
      simp only [trie_insert_go]
      rw [hpm]
    have hned : ∀ c rest, search.drop p = c :: rest →
        c ≠ (getString st.strings.buf node.prefix_off).getD p 0 := by
      intro c rest hdrop hceq
      have hgd := getD_eq_of_drop_cons hdrop
      exact hne (by rw [← hceq]; exact hgd.symm)
    obtain ⟨hdp, hdmem, hdext⟩ := trie_insert_desc_on_split
      (fun s n rm => trie_insert_go search.length s n rm key value g)
      (trie_node_split st node p).1 (trie_node_split st node p).2
      ((getString st.strings.buf node.prefix_off).getD p 0)
      (TrieNode.mk (node.prefix_off + p + 1) node.children node.values)
      (search.drop p) key value g hch hv hned
    rw [hunf]
    refine ⟨?_, ?_⟩
    · rw [hdp]
      exact ((hra.mono hdext).getString_eq hs0)
    · refine ⟨TrieNode.mk (node.prefix_off + p + 1) node.children node.values,
        hdmem, rfl, rfl, ?_⟩
      exact (getString_mono hterm hdext).trans hgs
  · intro hall
    have hpm := prefixMismatch_eq_none (getString st.strings.buf node.prefix_off) search hall
    have hunf : trie_insert st node search key value g
        = trie_insert_desc (fun s n rm => trie_insert_go search.length s n rm key value g)
            st node (search.drop (getString st.strings.buf node.prefix_off).length)
            key value g := by
      show trie_insert_go (search.length + 1) st node search key value g = _
      rw [show search.length + 1 = Nat.succ search.length from rfl]
      simp only [trie_insert_go]
      rw [hpm]
    rw [hunf]
    exact trie_insert_desc_prefix_off _ st node _ key value g

/-- Witness for `c4_amended_split_condition`: a node with prefix "bc" (pool
offset 1) and the pattern "bx", mismatching at position 1. -/
theorem c4_witness :
    (StrbufWF (strbuf_add_string strbuf_new [98, 99]).1 ∧
      Terminated (strbuf_add_string strbuf_new [98, 99]).1.buf 1 ∧
      1 < (getString (strbuf_add_string strbuf_new [98, 99]).1.buf 1).length ∧
      (getString (strbuf_add_string strbuf_new [98, 99]).1.buf 1).getD 1 0
        ≠ ([98, 120] : List Nat).getD 1 0 ∧
      (∀ q, q < 1 → (getString (strbuf_add_string strbuf_new [98, 99]).1.buf 1).getD q 0
        = ([98, 120] : List Nat).getD q 0)) ∧
    (getString (trie_insert ⟨(strbuf_add_string strbuf_new [98, 99]).1, 1, 0, 0⟩
          (TrieNode.mk 1 [] []) [98, 120] [75] [49] 0).1.strings.buf
        (trie_insert ⟨(strbuf_add_string strbuf_new [98, 99]).1, 1, 0, 0⟩
          (TrieNode.mk 1 [] []) [98, 120] [75] [49] 0).2.prefix_off
      = (getString (strbuf_add_string strbuf_new [98, 99]).1.buf 1).take 1 ∧
    ∃ ch, ((getString (strbuf_add_string strbuf_new [98, 99]).1.buf 1).getD 1 0, ch)
        ∈ (trie_insert ⟨(strbuf_add_string strbuf_new [98, 99]).1, 1, 0, 0⟩
          (TrieNode.mk 1 [] []) [98, 120] [75] [49] 0).2.children ∧
      ch.children = ([] : List (Nat × TrieNode)) ∧ ch.values = ([] : List (Nat × Nat)) ∧
      getString (trie_insert ⟨(strbuf_add_string strbuf_new [98, 99]).1, 1, 0, 0⟩
          (TrieNode.mk 1 [] []) [98, 120] [75] [49] 0).1.strings.buf ch.prefix_off
        = (getString (strbuf_add_string strbuf_new [98, 99]).1.buf 1).drop 2) :=
  ⟨⟨(strbuf_add_spec strbuf_new [98, 99] strbuf_new_wf (by decide)).1,
    (strbuf_add_spec strbuf_new [98, 99] strbuf_new_wf (by decide)).2.terminated,
    by decide, by decide, by decide⟩,
   (c4_amended_split_condition ⟨(strbuf_add_string strbuf_new [98, 99]).1, 1, 0, 0⟩
     (TrieNode.mk 1 [] []) [98, 120] [75] [49] 0
     (strbuf_add_spec strbuf_new [98, 99] strbuf_new_wf (by decide)).1
     (strbuf_add_spec strbuf_new [98, 99] strbuf_new_wf (by decide)).2.terminated).1
     1 (by decide) (by decide) (by decide)⟩

/-! ## The children sorted-and-unique invariant -/

/-- Every node's children array, throughout the tree, is strictly sorted by
discriminator byte; strict sortedness makes the discriminators unique. -/
inductive treeChildrenWF : TrieNode → Prop where
  | mk : ∀ poff cs vs, cs.Pairwise (fun a b => a.1 < b.1) →
      (∀ e ∈ cs, treeChildrenWF e.2) → treeChildrenWF (TrieNode.mk poff cs vs)

theorem treeChildrenWF_iff (node : TrieNode) :
    treeChildrenWF node ↔ node.children.Pairwise (fun a b => a.1 < b.1) ∧
      ∀ e ∈ node.children, treeChildrenWF e.2 := by
  obtain ⟨p, cs, vs⟩ := node
  constructor
  · intro h
    cases h with
    | mk _ _ _ h1 h2 => exact ⟨h1, h2⟩
  · intro h
    exact treeChildrenWF.mk p cs vs h.1 h.2

instance : IsTotal (Nat × TrieNode) (fun a b => a.1 ≤ b.1) :=
  ⟨fun a b => Nat.le_total a.1 b.1⟩

instance : IsTrans (Nat × TrieNode) (fun a b => a.1 ≤ b.1) :=
  ⟨fun a b c h1 h2 => Nat.le_trans h1 h2⟩

theorem pairwise_lt_of_le_nodup {l : List (Nat × TrieNode)}
    (hle : l.Pairwise (fun a b => a.1 ≤ b.1)) (hnd : (l.map Prod.fst).Nodup) :
    l.Pairwise (fun a b => a.1 < b.1) := by
  induction l with
  | nil => exact List.Pairwise.nil
  | cons a l ih =>
    rw [List.pairwise_cons] at hle ⊢
    rw [List.map_cons, List.nodup_cons] at hnd
    refine ⟨fun b hb => Nat.lt_of_le_of_ne (hle.1 b hb) ?_, ih hle.2 hnd.2⟩
    intro heq
    apply hnd.1
    rw [heq]
    exact List.mem_map_of_mem Prod.fst hb

theorem node_add_child_pairwise {st : TrieSt} {node child : TrieNode} {c : Nat}
    (hs : node.children.Pairwise (fun a b => a.1 < b.1))
    (hnotin : ∀ e ∈ node.children, e.1 ≠ c) :
    (node_add_child st node child c).2.children.Pairwise (fun a b => a.1 < b.1) := by
  show (List.insertionSort (fun a b => a.1 ≤ b.1)
    (node.children ++ [(c, child)])).Pairwise (fun a b => a.1 < b.1)
  apply pairwise_lt_of_le_nodup (List.sorted_insertionSort _ _)
  have hperm := (List.perm_insertionSort (fun a b : Nat × TrieNode => a.1 ≤ b.1)
    (node.children ++ [(c, child)])).map Prod.fst
  rw [hperm.nodup_iff, List.map_append]
  refine List.Nodup.append ?_ (by simp) ?_
  · exact List.Pairwise.map Prod.fst (fun a b h => Nat.ne_of_lt h) hs
  · intro a ha hb
    simp only [List.map_cons, List.map_nil, List.mem_cons, List.not_mem_nil,
      or_false] at hb
    obtain ⟨e, he, rfl⟩ := List.mem_map.mp ha
    exact hnotin e he hb

theorem set_getD_self : ∀ (l : List Nat) (i c : Nat),
    i < l.length → l.getD i 0 = c → l.set i c = l
  | [], i, c, hi, _ => by simp at hi
  | a :: l, 0, c, _, h => by
    simp only [List.getD_cons_zero] at h
    rw [← h]
    rfl
  | a :: l, i + 1, c, hi, h => by
    show a :: l.set i c = a :: l
    rw [set_getD_self l i c (by simpa using hi) (by simpa using h)]

theorem pairwise_fst_iff (l : List (Nat × TrieNode)) :
    l.Pairwise (fun a b => a.1 < b.1) ↔ (l.map Prod.fst).Pairwise (· < ·) := by
  rw [List.pairwise_map]

theorem getD_map_fst (l : List (Nat × TrieNode)) (i : Nat) (hi : i < l.length)
    (d : Nat × TrieNode) :
    (l.map Prod.fst).getD i 0 = (l.getD i d).1 := by
  rw [List.getD_eq_getElem _ _ (by simpa using hi), List.getD_eq_getElem _ _ hi]
  simp

theorem getD_mem_of_lt (l : List (Nat × TrieNode)) (i : Nat) (hi : i < l.length)
    (d : Nat × TrieNode) : l.getD i d ∈ l := by
  rw [List.getD_eq_getElem _ _ hi]
  exact List.getElem_mem hi

theorem trie_node_split_children (st : TrieSt) (node : TrieNode) (p : Nat) :
    (trie_node_split st node p).2.children
      = [((getString st.strings.buf node.prefix_off).getD p 0,
          TrieNode.mk (node.prefix_off + p + 1) node.children node.values)] := rfl

theorem trie_node_split_wf {st : TrieSt} {node : TrieNode} {p : Nat}
    (h : treeChildrenWF node) : treeChildrenWF (trie_node_split st node p).2 := by
  obtain ⟨hs, hf⟩ := (treeChildrenWF_iff node).mp h
  rw [treeChildrenWF_iff, trie_node_split_children]
  refine ⟨by simp, ?_⟩
  intro e he
  simp only [List.mem_cons, List.not_mem_nil, or_false] at he
  subst he
  exact (treeChildrenWF_iff _).mpr ⟨hs, hf⟩

theorem children_mk (p : Nat) (cs : List (Nat × TrieNode)) (vs : List (Nat × Nat)) :
    (TrieNode.mk p cs vs).children = cs := rfl

theorem trie_insert_desc_wf
    (recur : TrieSt → TrieNode → List Nat → TrieSt × TrieNode)
    (hrec : ∀ s n r, treeChildrenWF n → treeChildrenWF (recur s n r).2)
    (st : TrieSt) (node : TrieNode) (rem key value : List Nat) (g : Nat)
    (h : treeChildrenWF node) :
    treeChildrenWF (trie_insert_desc recur st node rem key value g).2 := by
  obtain ⟨hs, hf⟩ := (treeChildrenWF_iff node).mp h
  cases rem with
  | nil =>
    rw [treeChildrenWF_iff]
    obtain ⟨_, hc, _, _, _⟩ := trie_node_add_value_shape st node key value g
    rw [show (trie_insert_desc recur st node [] key value g)
      = trie_node_add_value st node key value g from rfl]
    rw [hc]
    exact ⟨hs, hf⟩
  | cons c rest =>
    cases hl : node_lookup node c with
    | some i =>
      obtain ⟨hlen, hkey⟩ := node_lookup_some hl
      simp only [trie_insert_desc, hl]
      rw [treeChildrenWF_iff, children_mk]
      constructor
      · rw [pairwise_fst_iff, List.map_set]
        show List.Pairwise (fun x1 x2 => x1 < x2) ((node.children.map Prod.fst).set i c)
        rw [set_getD_self (node.children.map Prod.fst) i c
          (by simpa using hlen)
          (by rw [getD_map_fst node.children i hlen (0, TrieNode.mk 0 [] [])]; exact hkey)]
        rw [← pairwise_fst_iff]
        exact hs
      · intro e he
        rcases List.mem_or_eq_of_mem_set he with hmem | rfl
        · exact hf e hmem
        · exact hrec st _ rest (hf _ (getD_mem_of_lt node.children i hlen _))
    | none =>
      simp only [trie_insert_desc, hl]
      rw [treeChildrenWF_iff]
      constructor
      · exact node_add_child_pairwise hs (node_lookup_none hs hl)
      · intro e he
        rcases mem_node_add_child.mp he with hmem | rfl
        · exact hf e hmem
        · rw [treeChildrenWF_iff]
          obtain ⟨_, hc2, _, _, _⟩ := trie_node_add_value_shape
            { st with strings := (strbuf_add_string st.strings rest).1 }
            (TrieNode.mk (strbuf_add_string st.strings rest).2 [] []) key value g
          refine ⟨?_, ?_⟩
          · show ((trie_node_add_value
                { st with strings := (strbuf_add_string st.strings rest).1 }
                (TrieNode.mk (strbuf_add_string st.strings rest).2 [] [])
                key value g).2.children).Pairwise _
            rw [hc2]
            simp [TrieNode.children]
          · show ∀ e2 ∈ (trie_node_add_value
                { st with strings := (strbuf_add_string st.strings rest).1 }
                (TrieNode.mk (strbuf_add_string st.strings rest).2 [] [])
                key value g).2.children, treeChildrenWF e2.2
            rw [hc2]
            simp [TrieNode.children]

theorem trie_insert_go_wf :
    ∀ fuel st node search key value g, treeChildrenWF node →
      treeChildrenWF (trie_insert_go fuel st node search key value g).2 := by
  intro fuel
  induction fuel with
  | zero =>
    intro st node search key value g h
    exact h
  | succ fuel ih =>
    intro st node search key value g h
    cases hpm : prefixMismatch (getString st.strings.buf node.prefix_off) search with
    | some p =>
      have hunf : trie_insert_go (Nat.succ fuel) st node search key value g
          = trie_insert_desc (fun s n rm => trie_insert_go fuel s n rm key value g)
              (trie_node_split st node p).1 (trie_node_split st node p).2
              (search.drop p) key value g := by
        simp only [trie_insert_go]
        rw [hpm]
      rw [hunf]
      exact trie_insert_desc_wf _ (fun s n r hn => ih s n r key value g hn)
        _ _ _ key value g (trie_node_split_wf h)
    | none =>
      have hunf : trie_insert_go (Nat.succ fuel) st node search key value g
          = trie_insert_desc (fun s n rm => trie_insert_go fuel s n rm key value g)
              st node (search.drop (getString st.strings.buf node.prefix_off).length)
              key value g := by
        simp only [trie_insert_go]
        rw [hpm]
      rw [hunf]
      exact trie_insert_desc_wf _ (fun s n r hn => ih s n r key value g hn)
        _ _ _ key value g h

/-- Claim C8: CONFIRMED.  Starting from the freshly initialised trie (a root
with no children), after any sequence of successful inserts every node's
children array is strictly sorted ascending by discriminator byte -- in
particular no two child entries of any node share a discriminator; the
invariant is preserved by every insert, splits included. -/
theorem c8_children_sorted_unique (ops : List (List Nat × List Nat × List Nat × Nat)) :
    treeChildrenWF (run_inserts (trie_init, trie_init_root) ops).2 := by
  suffices h : ∀ t : TrieSt × TrieNode, treeChildrenWF t.2 →
      treeChildrenWF (run_inserts t ops).2 by
    exact h _ ((treeChildrenWF_iff trie_init_root).mpr ⟨by
      rw [show trie_init_root.children = [] from rfl]
      exact List.Pairwise.nil, by
      intro e he
      rw [show trie_init_root.children = [] from rfl] at he
      simp at he⟩)
  induction ops with
  | nil =>
    intro t h
    exact h
  | cons op ops ih =>
    intro t h
    exact ih (trie_insert t.1 t.2 op.1 op.2.1 op.2.2.1 op.2.2.2)
      (trie_insert_go_wf (op.1.length + 1) t.1 t.2 op.1 op.2.1 op.2.2.1 op.2.2.2 h)

/-! ## The nodes/children counter invariant -/

theorem trie_insert_desc_counts
    (recur : TrieSt → TrieNode → List Nat → TrieSt × TrieNode)
    (hrec : ∀ s n r, (recur s n r).1.nodes_count + s.children_count
      = (recur s n r).1.children_count + s.nodes_count)
    (st : TrieSt) (node : TrieNode) (rem key value : List Nat) (g : Nat) :
    (trie_insert_desc recur st node rem key value g).1.nodes_count + st.children_count
      = (trie_insert_desc recur st node rem key value g).1.children_count
        + st.nodes_count := by
  cases rem with
  | nil =>
    obtain ⟨_, _, _, hn, hc⟩ := trie_node_add_value_shape st node key value g
    show (trie_node_add_value st node key value g).1.nodes_count + st.children_count
      = (trie_node_add_value st node key value g).1.children_count + st.nodes_count
    rw [hn, hc]
    omega
  | cons c rest =>
    cases hl : node_lookup node c with
    | some i =>
      simp only [trie_insert_desc, hl]
      exact hrec st _ rest
    | none =>
      simp only [trie_insert_desc, hl]
      obtain ⟨_, _, _, hn, hc⟩ := trie_node_add_value_shape
        { st with strings := (strbuf_add_string st.strings rest).1 }
        (TrieNode.mk (strbuf_add_string st.strings rest).2 [] []) key value g
      obtain ⟨_, _, _, hn2, hc2⟩ := node_add_child_shape
        (trie_node_add_value
          { st with strings := (strbuf_add_string st.strings rest).1 }
          (TrieNode.mk (strbuf_add_string st.strings rest).2 [] []) key value g).1
        node
        (trie_node_add_value
          { st with strings := (strbuf_add_string st.strings rest).1 }
          (TrieNode.mk (strbuf_add_string st.strings rest).2 [] []) key value g).2 c
      rw [hn2, hc2, hn, hc]
      show st.nodes_count + 1 + st.children_count = st.children_count + 1 + st.nodes_count
      omega

theorem trie_insert_go_counts :
    ∀ fuel st node search key value g,
      (trie_insert_go fuel st node search key value g).1.nodes_count + st.children_count
        = (trie_insert_go fuel st node search key value g).1.children_count
          + st.nodes_count := by
  intro fuel
  induction fuel with
  | zero =>
    intro st node search key value g
    exact Nat.add_comm st.nodes_count st.children_count
  | succ fuel ih =>
    intro st node search key value g
    cases hpm : prefixMismatch (getString st.strings.buf node.prefix_off) search with
    | some p =>
      have hunf : trie_insert_go (Nat.succ fuel) st node search key value g
          = trie_insert_desc (fun s n rm => trie_insert_go fuel s n rm key value g)
              (trie_node_split st node p).1 (trie_node_split st node p).2
              (search.drop p) key value g := by
        simp only [trie_insert_go]
        rw [hpm]
      rw [hunf]
      have hd := trie_insert_desc_counts
        (fun s n rm => trie_insert_go fuel s n rm key value g)
        (fun s n r => ih s n r key value g)
        (trie_node_split st node p).1 (trie_node_split st node p).2
        (search.drop p) key value g
      have hsn : (trie_node_split st node p).1.nodes_count = st.nodes_count + 1 := rfl
      have hsc : (trie_node_split st node p).1.children_count = st.children_count + 1 := rfl
      omega
    | none =>
      have hunf : trie_insert_go (Nat.succ fuel) st node search key value g
          = trie_insert_desc (fun s n rm => trie_insert_go fuel s n rm key value g)
              st node (search.drop (getString st.strings.buf node.prefix_off).length)
              key value g := by
        simp only [trie_insert_go]
        rw [hpm]
      rw [hunf]
      exact trie_insert_desc_counts _ (fun s n r => ih s n r key value g)
        st node _ key value g

theorem trie_insert_counts (st : TrieSt) (node : TrieNode)
    (search key value : List Nat) (g : Nat) :
    (trie_insert st node search key value g).1.nodes_count + st.children_count
      = (trie_insert st node search key value g).1.children_count + st.nodes_count :=
  trie_insert_go_counts (search.length + 1) st node search key value g

/-- Claim C9: CONFIRMED.  After initialisation (one root node, counted once)
and any sequence of successful inserts, the diagnostic counters satisfy
nodes_count = children_count + 1: every non-root node is attached by exactly
one child entry, and `node_add_child` increments both counters together. -/
theorem c9_nodes_eq_children_succ (ops : List (List Nat × List Nat × List Nat × Nat)) :
    (run_inserts (trie_init, trie_init_root) ops).1.nodes_count
      = (run_inserts (trie_init, trie_init_root) ops).1.children_count + 1 := by
  suffices h : ∀ t : TrieSt × TrieNode, t.1.nodes_count = t.1.children_count + 1 →
      (run_inserts t ops).1.nodes_count = (run_inserts t ops).1.children_count + 1 by
    exact h _ rfl
  induction ops with
  | nil =>
    intro t h
    exact h
  | cons op ops ih =>
    intro t h
    apply ih (trie_insert t.1 t.2 op.1 op.2.1 op.2.2.1 op.2.2.2)
    have := trie_insert_counts t.1 t.2 op.1 op.2.1 op.2.2.1 op.2.2.2
    omega

/-! ## Serializer layout -/

/-- One on-disk node record as emitted by `trie_store_nodes` (a
`struct trie_node_f` followed by its child entry and value entry arrays): the
file offset at which the node record was written, the stored prefix offset,
the two counts, the child entries `(c, child_off)` and the value entries
`(key_off, value_off)`.  The stored string offsets are `uint64_t` sums
(`htole64(trie->strings_off + off)`), hence reduced mod 2^64. -/
structure NodeRecF where
  off : Nat
  prefix_off : Nat
  children_count : Nat
  values_count : Nat
  children : List (Nat × Nat)
  values : List (Nat × Nat)

mutual
/-- The size pass `trie_store_nodes_size` (lines 265-276): the number of
bytes the subtree rooted at a node occupies in the nodes region, given the
on-disk record sizes (`sizeof(struct trie_node_f)`, `sizeof(struct
trie_child_entry_f)`, `sizeof(struct trie_value_entry_f)`; the structs live
in udev-hwdb.h, which is not among the given sources, so the sizes are kept
as parameters). -/
def trie_store_nodes_size (nodeSize childSize valueSize : Nat) : TrieNode → Nat
  | .mk _ cs vs =>
    trie_store_children_size nodeSize childSize valueSize cs
      + nodeSize + cs.length * childSize + vs.length * valueSize

def trie_store_children_size (nodeSize childSize valueSize : Nat) :
    List (Nat × TrieNode) → Nat
  | [] => 0
  | e :: rest =>
    trie_store_nodes_size nodeSize childSize valueSize e.2
      + trie_store_children_size nodeSize childSize valueSize rest
end

mutual
/-- The write pass `trie_store_nodes` (lines 278-329): post-order, children
subtrees written first, then the node record at the current position
(`ftello`), then its child entry array and value entries.  Returns the
records written, the new file position and the file offset of this node's
record; `soff` is `trie->strings_off`, added to every string offset. -/
def trie_store_nodes (nodeSize childSize valueSize soff : Nat) :
    TrieNode → Nat → List NodeRecF × Nat × Nat
  | .mk poff cs vs, pos =>
    let r := trie_store_children nodeSize childSize valueSize soff cs pos
    (r.1 ++ [⟨r.2.1, (soff + poff) % 2 ^ 64, cs.length, vs.length, r.2.2,
        vs.map (fun kv => ((soff + kv.1) % 2 ^ 64, (soff + kv.2) % 2 ^ 64))⟩],
      r.2.1 + nodeSize + cs.length * childSize + vs.length * valueSize,
      r.2.1)

def trie_store_children (nodeSize childSize valueSize soff : Nat) :
    List (Nat × TrieNode) → Nat → List NodeRecF × Nat × List (Nat × Nat)
  | [], pos => ([], pos, [])
  | e :: rest, pos =>
    let r1 := trie_store_nodes nodeSize childSize valueSize soff e.2 pos
    let r2 := trie_store_children nodeSize childSize valueSize soff rest r1.2.1
    (r1.1 ++ r2.1, r2.2.1, (e.1, r1.2.2) :: r2.2.2)
end

mutual
/-- All nodes of a subtree, children-first (the write order). -/
def subNodes : TrieNode → List TrieNode
  | .mk poff cs vs => subForest cs ++ [.mk poff cs vs]

def subForest : List (Nat × TrieNode) → List TrieNode
  | [] => []
  | e :: rest => subNodes e.2 ++ subForest rest
end

mutual
theorem trie_store_nodes_pos (nodeSize childSize valueSize soff : Nat) :
    ∀ (n : TrieNode) (pos : Nat),
      (trie_store_nodes nodeSize childSize valueSize soff n pos).2.1
        = pos + trie_store_nodes_size nodeSize childSize valueSize n
  | .mk poff cs vs, pos => by
    simp only [trie_store_nodes, trie_store_nodes_size]
    rw [trie_store_children_pos nodeSize childSize valueSize soff cs pos]
    omega

theorem trie_store_children_pos (nodeSize childSize valueSize soff : Nat) :
    ∀ (cs : List (Nat × TrieNode)) (pos : Nat),
      (trie_store_children nodeSize childSize valueSize soff cs pos).2.1
        = pos + trie_store_children_size nodeSize childSize valueSize cs
  | [], pos => by
    simp [trie_store_children, trie_store_children_size]
  | e :: rest, pos => by
    simp only [trie_store_children, trie_store_children_size]
    rw [trie_store_children_pos nodeSize childSize valueSize soff rest _]
    rw [trie_store_nodes_pos nodeSize childSize valueSize soff e.2 pos]
    omega
end

mutual
theorem trie_store_nodes_mem (nodeSize childSize valueSize soff : Nat) :
    ∀ (n : TrieNode) (pos : Nat) (r : NodeRecF),
      r ∈ (trie_store_nodes nodeSize childSize valueSize soff n pos).1 →
      ∃ m ∈ subNodes n, r.prefix_off = (soff + m.prefix_off) % 2 ^ 64 ∧
        r.values = m.values.map
          (fun kv => ((soff + kv.1) % 2 ^ 64, (soff + kv.2) % 2 ^ 64))
  | .mk poff cs vs, pos, r => by
    intro hmem
    simp only [trie_store_nodes] at hmem
    rw [List.mem_append] at hmem
    rcases hmem with hmem | hown
    · obtain ⟨m, hm, h1, h2⟩ :=
        trie_store_children_mem nodeSize childSize valueSize soff cs pos r hmem
      refine ⟨m, ?_, h1, h2⟩
      rw [subNodes]
      exact List.mem_append_left _ hm
    · simp only [List.mem_cons, List.not_mem_nil, or_false] at hown
      subst hown
      refine ⟨TrieNode.mk poff cs vs, ?_, rfl, rfl⟩
      rw [subNodes]
      exact List.mem_append_right _ (by simp)

theorem trie_store_children_mem (nodeSize childSize valueSize soff : Nat) :
    ∀ (cs : List (Nat × TrieNode)) (pos : Nat) (r : NodeRecF),
      r ∈ (trie_store_children nodeSize childSize valueSize soff cs pos).1 →
      ∃ m ∈ subForest cs, r.prefix_off = (soff + m.prefix_off) % 2 ^ 64 ∧
        r.values = m.values.map
          (fun kv => ((soff + kv.1) % 2 ^ 64, (soff + kv.2) % 2 ^ 64))
  | [], pos, r => by
    intro hmem
    simp [trie_store_children] at hmem
  | e :: rest, pos, r => by
    intro hmem
    simp only [trie_store_children] at hmem
    rw [List.mem_append] at hmem
    rcases hmem with hmem | hmem
    · obtain ⟨m, hm, h1, h2⟩ :=
        trie_store_nodes_mem nodeSize childSize valueSize soff e.2 pos r hmem
      refine ⟨m, ?_, h1, h2⟩
      rw [subForest]
      exact List.mem_append_left _ hm
    · obtain ⟨m, hm, h1, h2⟩ :=
        trie_store_children_mem nodeSize childSize valueSize soff rest _ r hmem
      refine ⟨m, ?_, h1, h2⟩
      rw [subForest]
      exact List.mem_append_right _ hm
end

/-- Claim C6: CONFIRMED.  With `strings_off` computed by the size pass as
header size plus the byte length of the whole nodes region, the write pass
ends exactly at `strings_off` (so the strings region base is header_size +
nodes_len), and every string offset emitted into the file -- each node
record's prefix_off and each value entry's key_off and value_off -- equals
the string's in-pool offset plus that base (absent `uint64_t` overflow,
which the hypothesis rules out): on-disk string offsets are absolute file
offsets. -/
theorem c6_absolute_string_offsets
    (nodeSize childSize valueSize headerSize : Nat) (root : TrieNode)
    (hbound : ∀ m ∈ subNodes root,
      (headerSize + trie_store_nodes_size nodeSize childSize valueSize root
        + m.prefix_off < 2 ^ 64) ∧
      ∀ kv ∈ m.values,
        (headerSize + trie_store_nodes_size nodeSize childSize valueSize root
          + kv.1 < 2 ^ 64) ∧
        (headerSize + trie_store_nodes_size nodeSize childSize valueSize root
          + kv.2 < 2 ^ 64)) :
    (trie_store_nodes nodeSize childSize valueSize
        (headerSize + trie_store_nodes_size nodeSize childSize valueSize root)
        root headerSize).2.1
      = headerSize + trie_store_nodes_size nodeSize childSize valueSize root ∧
    ∀ r ∈ (trie_store_nodes nodeSize childSize valueSize
        (headerSize + trie_store_nodes_size nodeSize childSize valueSize root)
        root headerSize).1,
      ∃ m ∈ subNodes root,
        r.prefix_off
          = headerSize + trie_store_nodes_size nodeSize childSize valueSize root
            + m.prefix_off ∧
        r.values = m.values.map (fun kv =>
          (headerSize + trie_store_nodes_size nodeSize childSize valueSize root + kv.1,
           headerSize + trie_store_nodes_size nodeSize childSize valueSize root + kv.2)) := by
  constructor
  · exact trie_store_nodes_pos nodeSize childSize valueSize _ root headerSize
  · intro r hr
    obtain ⟨m, hm, h1, h2⟩ :=
      trie_store_nodes_mem nodeSize childSize valueSize _ root headerSize r hr
    obtain ⟨hb1, hb2⟩ := hbound m hm
    refine ⟨m, hm, ?_, ?_⟩
    · rw [h1, Nat.mod_eq_of_lt hb1]
    · rw [h2]
      apply List.map_congr_left
      intro kv hkv
      obtain ⟨hk1, hk2⟩ := hb2 kv hkv
      rw [Nat.mod_eq_of_lt hk1, Nat.mod_eq_of_lt hk2]

/-- Witness for `c6_absolute_string_offsets`: the on-disk record sizes of the
reference layout (node 24, child entry 16, value entry 16, header 80 bytes)
and a two-node trie. -/
theorem c6_witness :
    (∀ m ∈ subNodes (TrieNode.mk 0 [(97, TrieNode.mk 1 [] [(2, 3)])] [(4, 5)]),
      (80 + trie_store_nodes_size 24 16 16
          (TrieNode.mk 0 [(97, TrieNode.mk 1 [] [(2, 3)])] [(4, 5)])
        + m.prefix_off < 2 ^ 64) ∧
      ∀ kv ∈ m.values,
        (80 + trie_store_nodes_size 24 16 16
            (TrieNode.mk 0 [(97, TrieNode.mk 1 [] [(2, 3)])] [(4, 5)])
          + kv.1 < 2 ^ 64) ∧
        (80 + trie_store_nodes_size 24 16 16
            (TrieNode.mk 0 [(97, TrieNode.mk 1 [] [(2, 3)])] [(4, 5)])
          + kv.2 < 2 ^ 64)) ∧
    ((trie_store_nodes 24 16 16
        (80 + trie_store_nodes_size 24 16 16
          (TrieNode.mk 0 [(97, TrieNode.mk 1 [] [(2, 3)])] [(4, 5)]))
        (TrieNode.mk 0 [(97, TrieNode.mk 1 [] [(2, 3)])] [(4, 5)]) 80).2.1
      = 80 + trie_store_nodes_size 24 16 16
          (TrieNode.mk 0 [(97, TrieNode.mk 1 [] [(2, 3)])] [(4, 5)]) ∧
    ∀ r ∈ (trie_store_nodes 24 16 16
        (80 + trie_store_nodes_size 24 16 16
          (TrieNode.mk 0 [(97, TrieNode.mk 1 [] [(2, 3)])] [(4, 5)]))
        (TrieNode.mk 0 [(97, TrieNode.mk 1 [] [(2, 3)])] [(4, 5)]) 80).1,
      ∃ m ∈ subNodes (TrieNode.mk 0 [(97, TrieNode.mk 1 [] [(2, 3)])] [(4, 5)]),
        r.prefix_off
          = 80 + trie_store_nodes_size 24 16 16
              (TrieNode.mk 0 [(97, TrieNode.mk 1 [] [(2, 3)])] [(4, 5)])
            + m.prefix_off ∧
        r.values = m.values.map (fun kv =>
          (80 + trie_store_nodes_size 24 16 16
              (TrieNode.mk 0 [(97, TrieNode.mk 1 [] [(2, 3)])] [(4, 5)]) + kv.1,
           80 + trie_store_nodes_size 24 16 16
              (TrieNode.mk 0 [(97, TrieNode.mk 1 [] [(2, 3)])] [(4, 5)]) + kv.2))) :=
  ⟨by decide,
   c6_absolute_string_offsets 24 16 16 80
     (TrieNode.mk 0 [(97, TrieNode.mk 1 [] [(2, 3)])] [(4, 5)]) (by decide)⟩
